import Mathlib

/-!
Verification of the KindleAnnotationParser annotation pipeline
(annotation_parser.py) against its specification.

Text is modelled as List Char; a line of a text stream is a List Char
without line terminators (Python text mode translates all terminators
to a single newline character, and readline-level lines are modelled
after stripping that terminator has been accounted for explicitly,
mirroring rstrip in the source).  Python string primitives used by the
source are embedded explicitly below.
-/

namespace KindleAnnotation

/-- The line terminator used throughout the source (AnnotationParser.NEW_LINE). -/
def NL : Char := '\n'

/-- ASCII whitespace recognised by Python str.strip() / str.rstrip() with no
arguments (the source only ever meets ASCII whitespace in these calls). -/
def isPySpace (c : Char) : Bool :=
  c = ' ' || c = '\t' || c = '\n' || c = '\r' || c = '\x0b' || c = '\x0c'

/-- Python s.rstrip() : drop all trailing whitespace. -/
def pyRstrip (s : List Char) : List Char :=
  s.rdropWhile isPySpace

/-- Python s.rstrip with the two line-terminator characters as argument:
drop trailing carriage-return and newline characters only. -/
def pyRstripNL (s : List Char) : List Char :=
  s.rdropWhile (fun c => c = '\r' || c = '\n')

/-- Python s.strip() : drop leading and trailing whitespace. -/
def pyStrip (s : List Char) : List Char :=
  pyRstrip (s.dropWhile isPySpace)

/-- AnnotationParser._normalize_block: strip trailing whitespace and line
terminators, then append exactly one line terminator. -/
def normalize_block (s : List Char) : List Char :=
  pyRstrip s ++ [NL]

/-- The separator line of the clippings format, as a character list. -/
def sepChars : List Char := "==========".toList

/-- Python dict.setdefault on an insertion-ordered set of blocks:
if the block is present the set is unchanged, otherwise it is appended. -/
def setdefault (l : List (List Char)) (b : List Char) : List (List Char) :=
  if b ∈ l then l else l ++ [b]

/-- AnnotationParser._read_block, on a stream modelled as the list of its
remaining lines (each line already free of its terminator, as produced by
Python text-mode readline followed by the explicit terminator strip below):
accumulate lines until a separator line (equal to the ten-equals string after
stripping surrounding whitespace) or end of stream; a blank line (empty after
stripping terminators) contributes nothing, a non-blank line contributes
itself plus one terminator; finally one extra terminator is appended.
Returns the accumulated block and the unconsumed remainder of the stream. -/
def read_block : List (List Char) → List Char × List (List Char)
  | [] => ([NL], [])
  | line :: rest =>
    if pyStrip line = sepChars then ([NL], rest)
    else
      let l := pyRstripNL line
      let p := read_block rest
      (if l = [] then p.1 else l ++ NL :: p.1, p.2)

/-- The contribution of one accumulated line to a raw block in
AnnotationParser._read_block: nothing for a blank line, the line plus one
terminator otherwise. -/
def blockContrib (line : List Char) : List Char :=
  let l := pyRstripNL line
  if l = [] then [] else l ++ [NL]

/-- Header preprocessing in AnnotationParser._read: strip line terminators,
then drop the first character when it is not alphanumeric. -/
def processHeader (line : List Char) : List Char :=
  match pyRstripNL line with
  | [] => []
  | c :: cs => if c.isAlphanum then c :: cs else cs

/-- The in-memory book map: insertion-ordered association list from raw
header to the insertion-ordered set of normalized blocks. -/
abbrev Books := List (List Char × List (List Char))

/-- Inserting one normalized block for a header into the book map, mirroring
the dict-of-dicts use in AnnotationParser._read: a fresh header is appended
with a singleton set; an existing header has the block added by setdefault. -/
def bookInsert (books : Books) (h : List Char) (b : List Char) : Books :=
  if books.any (fun e => e.1 = h) then
    books.map (fun e => if e.1 = h then (e.1, setdefault e.2 b) else e)
  else
    books ++ [(h, [b])]

/-- Bound used for the termination of the read loop: _read_block only
consumes lines, so the remainder is no longer than the input stream. -/
theorem read_block_rest_length_le (lines : List (List Char)) :
    (read_block lines).2.length ≤ lines.length := by
  induction lines with
  | nil => simp [read_block]
  | cons line rest ih =>
    simp only [read_block]
    split
    · simp
    · simpa using Nat.le_succ_of_le ih

/-- AnnotationParser._read, over a stream of lines: repeatedly take a header
line, preprocess it, skip it when it becomes empty, and otherwise read the
following block, normalize it and insert it for that header. -/
def readLoop : Books → List (List Char) → Books
  | books, [] => books
  | books, line :: rest =>
    if processHeader line = [] then readLoop books rest
    else
      readLoop (bookInsert books (processHeader line)
        (normalize_block (read_block rest).1)) (read_block rest).2
termination_by _ lines => lines.length
decreasing_by
  · simp only [List.length_cons]; omega
  · have := read_block_rest_length_le rest
    simp only [List.length_cons]; omega

/-- Claim C6: the raw block accumulated by the Reader equals the
concatenation, over the lines up to but excluding the first separator line or
end of stream, of nothing for a blank line and the line plus one terminator
for a non-blank line, followed by exactly one extra terminator; the
unconsumed remainder is the stream after that separator line. -/
theorem read_block_accumulation (lines : List (List Char)) :
    read_block lines =
      (((lines.takeWhile (fun l => !decide (pyStrip l = sepChars))).map
          blockContrib).flatten ++ [NL],
        (lines.dropWhile (fun l => !decide (pyStrip l = sepChars))).drop 1) := by
  induction lines with
  | nil => simp [read_block]
  | cons line rest ih =>
    by_cases hsep : pyStrip line = sepChars
    · simp [read_block, hsep, List.takeWhile_cons, List.dropWhile_cons]
    · simp only [read_block, hsep, if_false, List.takeWhile_cons, List.dropWhile_cons,
        decide_False, Bool.not_false, if_true, List.map_cons, List.flatten_cons, ih]
      by_cases hl : pyRstripNL line = []
      · simp [blockContrib, hl]
      · simp [blockContrib, hl]

/-- Helper for Python s.rfind(c): index of the last occurrence of c in s,
or none when absent. -/
def rfindAux (c : Char) : List Char → Option Nat
  | [] => none
  | x :: xs =>
    match rfindAux c xs with
    | some i => some (i + 1)
    | none => if x = c then some 0 else none

/-- Python s.rfind(c): index of the last occurrence of c, or -1 when absent. -/
def pyRfind (c : Char) (s : List Char) : Int :=
  match rfindAux c s with
  | some i => (i : Int)
  | none => -1

/-- AnnotationParser._get_title_author: split a raw header of the shape
Title (Author) at the last parenthesis pair, when the last opening
parenthesis has positive index and the last closing parenthesis follows it;
otherwise the whole stripped header is the title and the author is empty. -/
def get_title_author (h : List Char) : List Char × List Char :=
  let op := pyRfind '(' h
  let cp := pyRfind ')' h
  if 0 < op ∧ op < cp then
    (pyStrip (h.take op.toNat), pyStrip ((h.take cp.toNat).drop (op.toNat + 1)))
  else
    (pyStrip h, [])

/-- The filename-safe character filter and 112-character truncation applied
to the title in AnnotationParser._write. -/
def clean_title (title : List Char) : List Char :=
  (title.filter (fun c => c.isAlphanum || c ∈ " ._()-".toList)).take 112

/-- The output filename computed in AnnotationParser._write, parameterized
by the process string-hash function used by the Python builtin hash. -/
def output_filename (pyHash : List Char → Int) (raw_header : List Char) : List Char :=
  clean_title (get_title_author raw_header).1
    ++ '_' :: (toString (pyHash raw_header)).toList ++ ".txt".toList

/-- The file content produced by AnnotationParser._write for one book: the
title-author line, a blank line, then every block followed by one
terminator (each block already carries its own trailing terminator). -/
def writeContent (header : List Char) (blocks : List (List Char)) : List Char :=
  (get_title_author header).1 ++ ", ".toList ++ (get_title_author header).2
    ++ [NL, NL] ++ (blocks.map (fun b => b ++ [NL])).flatten

/-- Spec-side last-occurrence index, per the wording: find the last
occurrence of a given character, here located through the first match in the
reversed string. -/
def specLastIndexOf (c : Char) (s : List Char) : Option Nat :=
  (s.reverse.findIdx? (fun y => decide (y = c))).map (fun k => s.length - 1 - k)

/-- Spec-side title and author derivation, following the wording of the
specification: if an opening parenthesis exists at position above zero and a
closing parenthesis follows it (both taken as last occurrences), the title
is the trimmed text before the opening parenthesis and the author the
trimmed text between the parentheses; otherwise the title is the trimmed
header and the author is empty. -/
def specTitleAuthor (h : List Char) : List Char × List Char :=
  match specLastIndexOf '(' h, specLastIndexOf ')' h with
  | some i, some j =>
    if 0 < i ∧ i < j then
      (pyStrip (h.take i), pyStrip ((h.take j).drop (i + 1)))
    else
      (pyStrip h, [])
  | _, _ => (pyStrip h, [])

/-- The recursive rfind agrees with the reversed-search description. -/
theorem rfindAux_eq_specLastIndexOf (c : Char) (s : List Char) :
    rfindAux c s = specLastIndexOf c s := by
  induction s with
  | nil => rfl
  | cons x xs ih =>
    unfold specLastIndexOf at ih ⊢
    rw [rfindAux, ih]
    cases hx : xs.reverse.findIdx? (fun y => decide (y = c)) with
    | some k =>
      have hk : k < xs.length := by
        have := List.findIdx?_eq_some_iff_findIdx_eq.mp hx
        simpa using this.1
      simp only [List.reverse_cons, List.findIdx?_append, hx, Option.or_some,
        Option.map_some', List.length_cons, Option.some.injEq]
      omega
    | none =>
      simp only [hx, Option.map_none', List.reverse_cons, List.findIdx?_append,
        Option.none_or, List.findIdx?_cons, List.findIdx?_nil, Option.map_map]
      by_cases hxc : x = c
      · simp only [hxc, decide_True, if_true, Option.map_some', Function.comp_apply,
          List.length_reverse, List.length_cons, Option.some.injEq]
        omega
      · simp [hxc]

/-- The source title-author split agrees with the spec-side description. -/
theorem get_title_author_eq_spec (h : List Char) :
    get_title_author h = specTitleAuthor h := by
  unfold get_title_author specTitleAuthor pyRfind
  rw [rfindAux_eq_specLastIndexOf, rfindAux_eq_specLastIndexOf]
  cases hop : specLastIndexOf '(' h with
  | none =>
    cases hcp : specLastIndexOf ')' h with
    | none => simp
    | some j => simp
  | some i =>
    cases hcp : specLastIndexOf ')' h with
    | none =>
      have : ¬ ((0 : Int) < (i : Int) ∧ (i : Int) < -1) := by omega
      rw [if_neg this]
    | some j =>
      have hiff : ((0 : Int) < (i : Int) ∧ (i : Int) < (j : Int)) ↔ (0 < i ∧ i < j) := by
        omega
      by_cases hc : 0 < i ∧ i < j
      · simp [hiff, hc]
      · simp [hiff, hc]

/-- Claim C8: the written file content is exactly the title-author first
line derived by the last-parenthesis rule, one blank line, then each block
in set order followed by one blank line (one extra terminator after each
terminator-ending block). -/
theorem written_content_matches_spec (header : List Char) (blocks : List (List Char)) :
    writeContent header blocks =
      (specTitleAuthor header).1 ++ ", ".toList ++ (specTitleAuthor header).2
        ++ [NL, NL] ++ (blocks.map (fun b => b ++ [NL])).flatten := by
  unfold writeContent
  rw [get_title_author_eq_spec]

/-- The concrete header used to exhibit the hash-seed dependence of the
output filename. -/
def hdrBug : List Char := "My Book (Jane Doe)".toList

/-- Claim C1 (refuting the code): the output filename incorporates the value
of the process string-hash function on the raw header, so two processes
whose hash functions differ on the header (as Python hash randomization
produces) yield different filenames for the identical header. -/
theorem output_filename_depends_on_process_hash (h1 h2 : List Char → Int)
    (e1 : h1 hdrBug = 0) (e2 : h2 hdrBug = 1) :
    output_filename h1 hdrBug ≠ output_filename h2 hdrBug := by
  simp only [output_filename, e1, e2]
  decide

/-- Witness for claim C1: two concrete hash functions differing on the
header give different filenames. -/
theorem output_filename_depends_on_process_hash_witness :
    output_filename (fun _ => 0) hdrBug ≠ output_filename (fun _ => 1) hdrBug :=
  output_filename_depends_on_process_hash (fun _ => 0) (fun _ => 1) rfl rfl

/-- Python text.split on the newline character: splits into pieces, keeping
empty pieces, so the result always has one more piece than separators. -/
def splitNL : List Char → List (List Char)
  | [] => [[]]
  | c :: rest =>
    if c = NL then [] :: splitNL rest
    else
      match splitNL rest with
      | [] => [[c]]
      | l :: ls => (c :: l) :: ls

/-- The line-boundary characters recognised by Python str.splitlines:
newline, carriage return, vertical tab, form feed, the file, group and
record separators, next line, line separator and paragraph separator. -/
def isLineBoundary (c : Char) : Bool :=
  c = '\n' || c = '\r' || c = '\x0b' || c = '\x0c' ||
  c = '\x1c' || c = '\x1d' || c = '\x1e' || c = '\x85' ||
  c = '\u2028' || c = '\u2029'

/-- Splitting at every Python line boundary, keeping a final (possibly
empty) piece; a carriage return followed by a newline counts as a single
boundary. -/
def splitB : List Char → List (List Char)
  | [] => [[]]
  | c :: rest =>
    if c = '\r' then
      match rest with
      | '\n' :: rest2 => [] :: splitB rest2
      | other => [] :: splitB other
    else if isLineBoundary c then
      [] :: splitB rest
    else
      match splitB rest with
      | [] => [[c]]
      | l :: ls => (c :: l) :: ls

/-- Python content.splitlines: split at every line-boundary character
(with carriage return plus newline as one boundary), without the final
empty piece that a trailing boundary would produce. -/
def pySplitlines (s : List Char) : List (List Char) :=
  if (splitB s).getLast? = some [] then (splitB s).dropLast else splitB s

/-- Python newline.join over a list of lines. -/
def joinNL : List (List Char) → List Char
  | [] => []
  | [l] => l
  | l :: ls => l ++ NL :: joinNL ls

/-- The loop of AnnotationParser._split_into_blocks: accumulate non-blank
lines; a blank line ends the current block, which is joined with the
terminator and given one trailing terminator; a final nonempty accumulator
is emitted the same way. -/
def splitBlocksLoop : List (List Char) → List (List Char) → List (List Char)
  | cur, [] => if cur = [] then [] else [joinNL cur ++ [NL]]
  | cur, line :: rest =>
    if pyStrip line = [] then
      if cur = [] then splitBlocksLoop [] rest
      else (joinNL cur ++ [NL]) :: splitBlocksLoop [] rest
    else splitBlocksLoop (cur ++ [line]) rest

/-- AnnotationParser._split_into_blocks. -/
def split_into_blocks (text : List Char) : List (List Char) :=
  splitBlocksLoop [] (splitNL text)

/-- AnnotationParser._read_existing_blocks: drop the title line, drop one
following blank line when present, rejoin the remainder and split it into
blocks. -/
def read_existing_blocks (content : List Char) : List (List Char) :=
  split_into_blocks (joinNL (
    if 1 < (pySplitlines content).length ∧
        pyStrip ((pySplitlines content).getD 1 []) = [] then
      (pySplitlines content).drop 2
    else
      (pySplitlines content).drop 1))

/-- AnnotationParser._merge_with_existing: normalize every block recovered
from the existing file content and insert it into the current ordered set
with setdefault. -/
def merge_with_existing (content : List Char) (current : List (List Char)) :
    List (List Char) :=
  (read_existing_blocks content).foldl
    (fun acc b => setdefault acc (normalize_block b)) current

/-- The per-book body of AnnotationParser._write: compute the filename, merge
with the existing file when merge mode is active and such a file exists, and
produce the final file content.  The existing-file environment maps a
filename to the content found at that path, when any. -/
def writeBook (pyHash : List Char → Int) (merge_option : Bool)
    (existing : List Char → Option (List Char)) (e : List Char × List (List Char)) :
    List Char × List Char :=
  let fname := output_filename pyHash e.1
  let blocks :=
    match merge_option, existing fname with
    | true, some content => merge_with_existing content e.2
    | _, _ => e.2
  (fname, writeContent e.1 blocks)

/-- The failure conditions surfaced by AnnotationParser: a missing input
file raises the NotFound condition before anything else happens. -/
inductive ParseError where
  | notFound
deriving DecidableEq

/-- AnnotationParser.parse: read the whole input (raising NotFound when the
input file is absent, modelled as a none input), then write every book.
Returns the final book map together with the written files. -/
def parse_run (pyHash : List Char → Int) (merge_option : Bool)
    (existing : List Char → Option (List Char))
    (input : Option (List (List Char))) :
    Except ParseError (Books × List (List Char × List Char)) :=
  match input with
  | none => Except.error ParseError.notFound
  | some lines =>
    let books := readLoop [] lines
    Except.ok (books, books.map (writeBook pyHash merge_option existing))

/-- Membership in a block set survives a setdefault insertion. -/
theorem mem_setdefault_of_mem {l : List (List Char)} {x b : List Char}
    (h : x ∈ l) : x ∈ setdefault l b := by
  unfold setdefault
  split
  · exact h
  · exact List.mem_append_left _ h

/-- A setdefault-inserted block is a member afterwards. -/
theorem mem_setdefault_self (l : List (List Char)) (b : List Char) :
    b ∈ setdefault l b := by
  unfold setdefault
  split
  · assumption
  · simp

/-- A setdefault insertion on an already-present block changes nothing. -/
theorem setdefault_eq_of_mem {l : List (List Char)} {b : List Char}
    (h : b ∈ l) : setdefault l b = l := by
  unfold setdefault
  exact if_pos h

/-- Membership in a block set survives the whole merge fold. -/
theorem mem_foldl_setdefault_of_mem (old : List (List Char)) :
    ∀ cur : List (List Char), ∀ x ∈ cur,
      x ∈ old.foldl (fun acc b => setdefault acc (normalize_block b)) cur := by
  induction old with
  | nil => intro cur x hx; simpa using hx
  | cons b bs ih =>
    intro cur x hx
    exact ih _ _ (mem_setdefault_of_mem hx)

/-- Every old block ends up, normalized, in the merged set. -/
theorem mem_foldl_setdefault (old : List (List Char)) :
    ∀ cur : List (List Char), ∀ b ∈ old,
      normalize_block b ∈
        old.foldl (fun acc b => setdefault acc (normalize_block b)) cur := by
  induction old with
  | nil => intro cur b hb; simp at hb
  | cons a as ih =>
    intro cur b hb
    rcases List.mem_cons.mp hb with rfl | hb
    · exact mem_foldl_setdefault_of_mem as _ _ (mem_setdefault_self _ _)
    · exact ih _ _ hb

/-- Spec-side description of the blocks a merge appends: scan the recovered
canonical blocks in order and keep the first occurrence of each block not
already present. -/
def specMergeExtras (cur : List (List Char)) : List (List Char) → List (List Char)
  | [] => []
  | b :: bs => if b ∈ cur then specMergeExtras cur bs
               else b :: specMergeExtras (cur ++ [b]) bs

/-- The merge fold equals the current set followed by the spec-side extras
of the normalized old blocks. -/
theorem foldl_setdefault_eq_specMergeExtras (old : List (List Char)) :
    ∀ cur : List (List Char),
      old.foldl (fun acc b => setdefault acc (normalize_block b)) cur
        = cur ++ specMergeExtras cur (old.map normalize_block) := by
  induction old with
  | nil => intro cur; simp [specMergeExtras]
  | cons a as ih =>
    intro cur
    by_cases ha : normalize_block a ∈ cur
    · simp only [List.foldl_cons, List.map_cons, specMergeExtras, ha, if_true]
      rw [setdefault_eq_of_mem ha]
      exact ih cur
    · simp only [List.foldl_cons, List.map_cons, specMergeExtras, ha, if_false]
      have hstep : setdefault cur (normalize_block a) = cur ++ [normalize_block a] := by
        simp [setdefault, ha]
      rw [hstep, ih (cur ++ [normalize_block a])]
      simp

/-- Structure of the merge fold: the current set is kept unchanged as a
prefix and the appended remainder consists of the previously absent old
blocks, normalized, without duplicates, in their original order. -/
theorem foldl_setdefault_split (old : List (List Char)) :
    ∀ cur : List (List Char), ∃ extra,
      old.foldl (fun acc b => setdefault acc (normalize_block b)) cur = cur ++ extra ∧
      extra.Sublist (old.map normalize_block) ∧
      (∀ b ∈ extra, b ∉ cur) ∧ extra.Nodup := by
  induction old with
  | nil => intro cur; exact ⟨[], by simp⟩
  | cons a as ih =>
    intro cur
    by_cases ha : normalize_block a ∈ cur
    · obtain ⟨extra, h1, h2, h3, h4⟩ := ih cur
      refine ⟨extra, ?_, h2.cons _, h3, h4⟩
      simpa [setdefault, ha] using h1
    · obtain ⟨extra, h1, h2, h3, h4⟩ := ih (cur ++ [normalize_block a])
      refine ⟨normalize_block a :: extra, ?_, h2.cons₂ _, ?_, ?_⟩
      · simpa [setdefault, ha] using h1
      · intro b hb
        rcases List.mem_cons.mp hb with rfl | hb
        · exact ha
        · intro hbc
          exact h3 b hb (List.mem_append_left _ hbc)
      · refine List.nodup_cons.mpr ⟨?_, h4⟩
        intro hmem
        exact h3 _ hmem (List.mem_append_right _ (by simp))

/-- Claim C2: merging an existing file into the current ordered block set
keeps every current block in place and in order, then appends exactly the
normalized old blocks that were absent, in their original relative order,
each at most once; every old block is present, normalized, afterwards; and
with merge mode inactive the Writer emits only the current blocks. -/
theorem merge_keeps_new_first_appends_old (content : List Char)
    (current : List (List Char)) :
    (merge_with_existing content current = current ++
      specMergeExtras current ((read_existing_blocks content).map normalize_block)) ∧
    (∃ extra,
      merge_with_existing content current = current ++ extra ∧
      extra.Sublist ((read_existing_blocks content).map normalize_block) ∧
      (∀ b ∈ extra, b ∉ current) ∧ extra.Nodup) ∧
    (∀ b ∈ read_existing_blocks content,
      normalize_block b ∈ merge_with_existing content current) ∧
    (∀ (pyHash : List Char → Int) (existing : List Char → Option (List Char))
      (h : List Char),
      writeBook pyHash false existing (h, current) =
        (output_filename pyHash h, writeContent h current)) := by
  refine ⟨foldl_setdefault_eq_specMergeExtras _ _, foldl_setdefault_split _ _, ?_, ?_⟩
  · intro b hb
    exact mem_foldl_setdefault _ _ _ hb
  · intro pyHash existing h
    rfl

/-- Claim C9: with a missing input file the parse fails with the NotFound
condition and produces neither book records nor output files. -/
theorem parse_missing_input_not_found (pyHash : List Char → Int)
    (merge_option : Bool) (existing : List Char → Option (List Char)) :
    parse_run pyHash merge_option existing none = Except.error ParseError.notFound ∧
    ∀ r, parse_run pyHash merge_option existing none ≠ Except.ok r := by
  exact ⟨rfl, fun r h => by simp [parse_run] at h⟩

/-- setdefault preserves duplicate freedom. -/
theorem setdefault_nodup {l : List (List Char)} (hl : l.Nodup) (b : List Char) :
    (setdefault l b).Nodup := by
  unfold setdefault
  split
  next => exact hl
  next h =>
    refine List.Nodup.append hl (by simp) ?_
    intro a ha hab
    simp only [List.mem_singleton] at hab
    exact h (hab ▸ ha)

/-- bookInsert keeps every book record duplicate free. -/
theorem bookInsert_nodup {books : Books} (hb : ∀ e ∈ books, e.2.Nodup)
    (h : List Char) (b : List Char) :
    ∀ e ∈ bookInsert books h b, e.2.Nodup := by
  unfold bookInsert
  split
  · intro e he
    obtain ⟨e', he', rfl⟩ := List.mem_map.mp he
    by_cases hh : e'.1 = h
    · simpa [hh] using setdefault_nodup (hb e' he') b
    · simpa [hh] using hb e' he'
  · intro e he
    rcases List.mem_append.mp he with he | he
    · exact hb e he
    · simp only [List.mem_singleton] at he
      subst he
      simp

/-- The read loop keeps every book record duplicate free. -/
theorem readLoop_nodup (books : Books) (lines : List (List Char)) :
    (∀ e ∈ books, e.2.Nodup) → ∀ e ∈ readLoop books lines, e.2.Nodup := by
  induction books, lines using readLoop.induct with
  | case1 books =>
    intro hb
    rw [readLoop]
    exact hb
  | case2 books line rest h ih =>
    intro hb
    rw [readLoop]
    simp only [h, if_true]
    exact ih hb
  | case3 books line rest h ih =>
    intro hb
    rw [readLoop]
    simp only [h, if_false]
    exact ih (bookInsert_nodup hb _ _)

/-- Claim C5: after any sequence of Reader insertions and Merger insertions
each book record is free of duplicate blocks, and inserting an
already-present canonical block changes nothing. -/
theorem book_records_duplicate_free (books : Books) (lines : List (List Char))
    (hb : ∀ e ∈ books, e.2.Nodup) (content : List Char)
    (current : List (List Char)) (hc : current.Nodup)
    (l : List (List Char)) (b : List Char) (hmem : b ∈ l) :
    (∀ e ∈ readLoop books lines, e.2.Nodup) ∧
    (merge_with_existing content current).Nodup ∧
    setdefault l b = l := by
  refine ⟨readLoop_nodup books lines hb, ?_, setdefault_eq_of_mem hmem⟩
  obtain ⟨extra, h1, _, h3, h4⟩ :=
    foldl_setdefault_split (read_existing_blocks content) current
  rw [merge_with_existing, h1, List.nodup_append]
  exact ⟨hc, h4, fun x hx hx' => h3 x hx' hx⟩

/-- Witness for claim C5 at a concrete stream, file content and block set. -/
theorem book_records_duplicate_free_witness :
    (∀ e ∈ readLoop []
        ["My Book (Jane Doe)".toList, "highlight one".toList, sepChars,
          "My Book (Jane Doe)".toList, "highlight one".toList, sepChars],
      e.2.Nodup) ∧
    (merge_with_existing "My Book, Jane Doe\n\nold block\n\n".toList
      ["highlight one\n".toList]).Nodup ∧
    setdefault ["highlight one\n".toList] "highlight one\n".toList
      = ["highlight one\n".toList] :=
  book_records_duplicate_free [] _ (by simp) _ _ (by decide) _ _ (by decide)

/-- Claim C7: a header line that becomes empty after stripping terminators
and dropping a leading non-alphanumeric character is skipped without
consuming any following line: the read loop continues directly on the
remaining lines. -/
theorem invalid_header_consumes_no_block (books : Books) (line : List Char)
    (rest : List (List Char)) (hinv : processHeader line = []) :
    readLoop books (line :: rest) = readLoop books rest := by
  rw [readLoop]
  simp [hinv]

/-- Witness for claim C7: a lone period header is dropped and the next line
is treated as header material. -/
theorem invalid_header_consumes_no_block_witness :
    readLoop [] [".".toList, "next entry".toList] =
      readLoop [] ["next entry".toList] :=
  invalid_header_consumes_no_block [] _ _ (by decide)

/-- Claim C10: a valid header immediately followed by the separator yields
the canonical empty block consisting of exactly one terminator; it is
normalized to itself, inserted like any block, and written as just one
additional blank line after the usual per-block blank line. -/
theorem empty_block_is_single_terminator (line : List Char)
    (rest : List (List Char)) (books : Books)
    (hline : pyStrip line = sepChars) (hdr : List Char)
    (bs : List (List Char)) :
    read_block (line :: rest) = ([NL], rest) ∧
    normalize_block [NL] = [NL] ∧
    (∀ hl : List Char, processHeader hl ≠ [] →
      readLoop books (hl :: line :: rest) =
        readLoop (bookInsert books (processHeader hl) [NL]) rest) ∧
    writeContent hdr ([NL] :: bs) =
      (get_title_author hdr).1 ++ ", ".toList ++ (get_title_author hdr).2
        ++ [NL, NL] ++ [NL, NL] ++ (bs.map (fun b => b ++ [NL])).flatten := by
  have hrb : read_block (line :: rest) = ([NL], rest) := by
    simp [read_block, hline]
  have hnb : normalize_block [NL] = [NL] := by decide
  refine ⟨hrb, hnb, ?_, ?_⟩
  · intro hl hvalid
    rw [readLoop]
    simp only [hvalid, if_false, hrb, hnb]
  · simp [writeContent]

/-- Witness for claim C10 at a concrete entry. -/
theorem empty_block_is_single_terminator_witness :
    read_block [sepChars, "later".toList] = ([NL], ["later".toList]) ∧
    normalize_block [NL] = [NL] ∧
    (∀ hl : List Char, processHeader hl ≠ [] →
      readLoop [] (hl :: sepChars :: ["later".toList]) =
        readLoop (bookInsert [] (processHeader hl) [NL]) ["later".toList]) ∧
    writeContent "A Book".toList ([NL] :: []) =
      (get_title_author "A Book".toList).1 ++ ", ".toList
        ++ (get_title_author "A Book".toList).2
        ++ [NL, NL] ++ [NL, NL] ++ (([] : List (List Char)).map (fun b => b ++ [NL])).flatten :=
  empty_block_is_single_terminator sepChars ["later".toList] [] (by decide)
    "A Book".toList []

/-- Splitting after a terminator-free line peels that line off. -/
theorem splitNL_append_cons (l : List Char) (hl : NL ∉ l) (rest : List Char) :
    splitNL (l ++ NL :: rest) = l :: splitNL rest := by
  induction l with
  | nil => simp [splitNL]
  | cons c cs ih =>
    have hc : ¬ c = NL := fun h => hl (h ▸ List.mem_cons_self c cs)
    have ihc := ih (fun h => hl (List.mem_cons_of_mem c h))
    simp only [List.cons_append, splitNL, hc, if_false, List.append_eq, ihc]

/-- Splitting a joined nonempty list of terminator-free lines followed by a
terminator and a remainder recovers the lines and splits the remainder. -/
theorem splitNL_joinNL_append (ls : List (List Char))
    (h : ∀ l ∈ ls, NL ∉ l) (hne : ls ≠ []) (rest : List Char) :
    splitNL (joinNL ls ++ NL :: rest) = ls ++ splitNL rest := by
  induction ls with
  | nil => exact absurd rfl hne
  | cons l ls2 ih =>
    cases ls2 with
    | nil =>
      simp only [joinNL]
      exact splitNL_append_cons l (h l (by simp)) rest
    | cons l2 ls3 =>
      have hstep : joinNL (l :: l2 :: ls3) = l ++ NL :: joinNL (l2 :: ls3) := rfl
      rw [hstep, List.append_assoc, List.cons_append,
        splitNL_append_cons l (h l (by simp)) _,
        ih (fun x hx => h x (List.mem_cons_of_mem l hx)) (by simp)]
      rfl

/-- Claim C4: normalization is idempotent: stripping trailing whitespace and
line terminators and appending one terminator, done twice, equals doing it
once. -/
theorem normalize_block_idempotent (s : List Char) :
    normalize_block (normalize_block s) = normalize_block s := by
  unfold normalize_block pyRstrip
  rw [List.rdropWhile_concat_pos _ _ NL (by decide), List.rdropWhile_idempotent]

end KindleAnnotation
